import Mathlib

/-!
Verification of `sceptre/helpers.py`.

The development embeds the two algorithmic functions of the file:

* `recurse_into_sub_stack_groups` — the decorator that fans an operation out
  over a tree of stack groups (threads submitted per child, results gathered
  in completion order, merged with `dict.update`, the node's own `func`
  result merged last) — modelled as `decorated` below, with completion order
  abstracted as the processing order of the child results;

* `_call_func_on_values` — the recursive walker over nested dict/list
  structures that calls `func(attr, key, value)` on every value that is an
  instance of the target class — modelled as `collect` (the sequence of
  callback invocations) and `replaceTargets` (the walk under the canonical
  in-place-replacement callback).

Python dictionaries are embedded as association lists with unique keys
(`wfDict`); `dict.__setitem__` keeps the position of an existing key and
appends a fresh key, which `dictInsert` mirrors; `dict.update` folds
`dictInsert` over the entries of the other dict.
-/

namespace Sceptre

variable {V E : Type}

/-- A Python dict with string keys, as an association list (insertion order). -/
abbrev Dict (V : Type) : Type := List (String × V)

/-- First-occurrence lookup.  On dicts with unique keys (every dict the
program builds) this is Python `d[k]` / `d.get(k)`. -/
def dlookup : Dict V → String → Option V
  | [], _ => none
  | p :: d, k => if p.1 = k then some p.2 else dlookup d k

/-- The key list of a dict. -/
def keys (d : Dict V) : List String := d.map Prod.fst

/-- Well-formedness: a real Python dict has pairwise distinct keys. -/
def wfDict (d : Dict V) : Prop := (keys d).Nodup

/-- `d[k] = v` in Python: replace in place when the key exists, append
otherwise. -/
def dictInsert (d : Dict V) (k : String) (v : V) : Dict V :=
  if k ∈ keys d then d.map (fun p => if p.1 = k then (k, v) else p)
  else d ++ [(k, v)]

/-- `responses.update(other)`: insert every entry of `other`, in order. -/
def dict_update (responses other : Dict V) : Dict V :=
  other.foldl (fun d p => dictInsert d p.1 p.2) responses

/-- Left-biased choice on options (used to state lookup specifications). -/
def oor : Option V → Option V → Option V
  | some v, _ => some v
  | none, o => o

/-- `if response: responses.update(response)` for a response that is a dict
(the shape of every sub-stack-group response). -/
def merge_nonempty (acc r : Dict V) : Dict V :=
  if r.isEmpty then acc else dict_update acc r

/-- `if response: responses.update(response)` for the `func` response, which
may also be `None` (absent). -/
def merge_opt (acc : Dict V) (r : Option (Dict V)) : Dict V :=
  match r with
  | none => acc
  | some d => merge_nonempty acc d

/-- One node of the stack-group tree: `self`, with `self.sub_stack_groups`.
A leaf has no sub stack groups. -/
inductive GroupNode : Type where
  | mk (name : String) (sub_stack_groups : List GroupNode)

/-- The wrapped operation `func`: run on a node, it either raises (`error`)
or returns a dict or `None`. -/
abbrev Op (V E : Type) : Type := GroupNode → Except E (Option (Dict V))

mutual

/-- The decorated method produced by `recurse_into_sub_stack_groups`:
gather each sub stack group's (recursively decorated) response, merging the
truthy ones into `responses`; then run `func` on the node itself and merge
its truthy response last; a raised error propagates unchanged and skips
everything after it. -/
def decorated (func : Op V E) : GroupNode → Except E (Dict V)
  | GroupNode.mk n subs =>
    match runChildren func subs [] with
    | Except.error e => Except.error e
    | Except.ok responses =>
      match func (GroupNode.mk n subs) with
      | Except.error e => Except.error e
      | Except.ok r => Except.ok (merge_opt responses r)
termination_by g => sizeOf g

/-- The `for future in as_completed(futures)` loop: take each child's result
in completion order (here: list order — theorems quantify over
permutations), re-raise the first error, merge truthy responses. -/
def runChildren (func : Op V E) : List GroupNode → Dict V → Except E (Dict V)
  | [], responses => Except.ok responses
  | g :: gs, responses =>
    match decorated func g with
    | Except.error e => Except.error e
    | Except.ok r => runChildren func gs (merge_nonempty responses r)
termination_by gs _ => sizeOf gs

end

/-- `recurse_into_sub_stack_groups func` is the decorated method. -/
def recurse_into_sub_stack_groups (func : Op V E) : GroupNode → Except E (Dict V) :=
  decorated func

mutual

/-- All nodes of a tree: the node itself and every descendant. -/
def nodes : GroupNode → List GroupNode
  | GroupNode.mk n subs => GroupNode.mk n subs :: nodesList subs
termination_by g => sizeOf g

/-- All nodes of a forest. -/
def nodesList : List GroupNode → List GroupNode
  | [] => []
  | g :: gs => nodes g ++ nodesList gs
termination_by gs => sizeOf gs

end

/-- The merge a single dispatch performs once the child results `rs` (in
completion order) and the node's own response are known. -/
def nodeAggregate (rs : List (Dict V)) (localR : Option (Dict V)) : Dict V :=
  merge_opt (rs.foldl merge_nonempty []) localR

/-- Lookup in an optional dict (`None` holds nothing). -/
def optLookup (r : Option (Dict V)) (k : String) : Option V :=
  match r with
  | none => none
  | some d => dlookup d k

/-- The specification lookup: the node's own response first (it is merged
last, hence wins), else the first child response holding the key. -/
def unionLookup (rs : List (Dict V)) (localR : Option (Dict V)) (k : String) : Option V :=
  oor (optLookup localR k) (rs.findSome? (fun d => dlookup d k))

/-- Two dicts have disjoint key sets. -/
def disjointKeys (a b : Dict V) : Prop :=
  ∀ k, k ∈ keys a → dlookup b k = none

/-!
The `_call_func_on_values` walker.  The Python values it traverses are
dicts, lists, instances of the target class `cls`, and everything else
(scalars); dict keys are themselves values.
-/

/-- A Python value as seen by `_call_func_on_values`: an instance of the
target class `cls`, a scalar, or a dict/list container. -/
inductive Value : Type where
  | target (id : Nat)
  | int (n : Int)
  | str (s : String)
  | list (elems : List Value)
  | dict (entries : List (Value × Value))

/-- `isinstance(value, cls)`. -/
def isTarget : Value → Bool
  | Value.target _ => true
  | _ => false

/-- `isinstance(value, list) or isinstance(value, dict)`. -/
def isContainer : Value → Bool
  | Value.list _ => true
  | Value.dict _ => true
  | _ => false

/-- The second argument of a `func(attr, key, value)` callback: a dict key
or a list index. -/
inductive VKey : Type where
  | key (k : Value)
  | idx (i : Nat)

/-- One callback invocation `func(attr, key, value)` made by the walker. -/
structure Visit : Type where
  container : Value
  at_key : VKey
  value : Value

mutual

/-- The sequence of `func(attr, key, value)` invocations
`_call_func_on_values(func, attr, cls)` performs, in order: dict values and
list elements that are instances of `cls` are visited; containers are
recursed into; dict keys and other scalars are ignored. -/
def collect : Value → List Visit
  | Value.dict es => collectEntries (Value.dict es) es
  | Value.list xs => collectElems (Value.list xs) 0 xs
  | _ => []
termination_by v => sizeOf v

/-- The `for key, value in attr.items()` loop. -/
def collectEntries (container : Value) : List (Value × Value) → List Visit
  | [] => []
  | (k, v) :: rest =>
    (if isTarget v then [⟨container, VKey.key k, v⟩]
     else if isContainer v then collect v else []) ++ collectEntries container rest
termination_by es => sizeOf es

/-- The `for index, value in enumerate(attr)` loop. -/
def collectElems (container : Value) (i : Nat) : List Value → List Visit
  | [] => []
  | v :: rest =>
    (if isTarget v then [⟨container, VKey.idx i, v⟩]
     else if isContainer v then collect v else []) ++ collectElems container (i + 1) rest
termination_by xs => sizeOf xs

end

mutual

/-- `_call_func_on_values(func, attr, cls)` under the canonical callback
`func(attr, key, value): attr[key] = y` — every visited target instance is
replaced by `y` in place, and the (mutated) structure is returned; a
non-container argument is returned untouched. -/
def replaceTargets (y : Value) : Value → Value
  | Value.dict es => Value.dict (replaceEntries y es)
  | Value.list xs => Value.list (replaceElems y xs)
  | v => v
termination_by v => sizeOf v

/-- Replacement inside the entries of a dict (keys untouched). -/
def replaceEntries (y : Value) : List (Value × Value) → List (Value × Value)
  | [] => []
  | (k, v) :: rest =>
    (k, if isTarget v then y else if isContainer v then replaceTargets y v else v)
      :: replaceEntries y rest
termination_by es => sizeOf es

/-- Replacement inside the elements of a list. -/
def replaceElems (y : Value) : List Value → List Value
  | [] => []
  | v :: rest =>
    (if isTarget v then y else if isContainer v then replaceTargets y v else v)
      :: replaceElems y rest
termination_by xs => sizeOf xs

end

/-- The nested structure of the walker-correctness test case,
`{"a": [1, {"b": x}], "c": x}`, as a function of the embedded value `x`. -/
def walkSample (x : Value) : Value :=
  Value.dict
    [ (Value.str "a", Value.list [Value.int 1, Value.dict [(Value.str "b", x)]]),
      (Value.str "c", x) ]

/-- A concrete operation for tests: every node reports `{self.name: 1}`. -/
def opName : Op Nat Unit := fun g =>
  match g with
  | GroupNode.mk n _ => Except.ok (some [(n, 1)])

/-- A concrete operation for tests: the leaf named `"a"` raises `7`, every
other node reports `{self.name: 0}`. -/
def opErr : Op Nat Nat := fun g =>
  match g with
  | GroupNode.mk "a" [] => Except.error 7
  | GroupNode.mk n _ => Except.ok (some [(n, 0)])

instance (a b : Dict V) : Decidable (disjointKeys a b) :=
  decidable_of_iff (∀ k ∈ keys a, (dlookup b k).isNone = true)
    (by simp [disjointKeys, Option.isNone_iff_eq_none])

instance (d : Dict V) : Decidable (wfDict d) :=
  decidable_of_iff ((keys d).Nodup) Iff.rfl

/-! ### Lookup and update lemmas for the dict model -/

theorem oor_none_right (o : Option V) : oor o none = o := by
  cases o <;> rfl

theorem keys_cons (p : String × V) (d : Dict V) :
    keys (p :: d) = p.1 :: keys d := rfl

theorem keys_append (a b : Dict V) : keys (a ++ b) = keys a ++ keys b := by
  simp [keys]

theorem dlookup_eq_none_iff (d : Dict V) (k : String) :
    dlookup d k = none ↔ k ∉ keys d := by
  induction d with
  | nil => simp [dlookup, keys]
  | cons p d ih =>
    rw [keys_cons]
    by_cases h : p.1 = k
    · simp [dlookup, h]
    · rw [List.mem_cons]
      simp only [dlookup, if_neg h]
      rw [ih]
      constructor
      · intro hn hc
        rcases hc with hc | hc
        · exact h hc.symm
        · exact hn hc
      · intro hn hc
        exact hn (Or.inr hc)

theorem mem_keys_of_dlookup_eq_some {d : Dict V} {k : String} {v : V}
    (h : dlookup d k = some v) : k ∈ keys d := by
  by_contra hk
  rw [(dlookup_eq_none_iff d k).2 hk] at h
  exact Option.noConfusion h

theorem dlookup_append_single {d : Dict V} {k : String} (v : V) (q : String)
    (hk : k ∉ keys d) :
    dlookup (d ++ [(k, v)]) q = if k = q then some v else dlookup d q := by
  induction d with
  | nil => simp [dlookup]
  | cons p d ih =>
    rw [keys_cons, List.mem_cons] at hk
    push_neg at hk
    by_cases hpq : p.1 = q
    · have hkq : ¬k = q := fun h => hk.1 (h.trans hpq.symm)
      simp [dlookup, hpq, hkq]
    · simp [dlookup, hpq, ih hk.2]

theorem dlookup_map_replace_ne {d : Dict V} {k q : String} (v : V) (hkq : k ≠ q) :
    dlookup (d.map fun p => if p.1 = k then (k, v) else p) q = dlookup d q := by
  induction d with
  | nil => rfl
  | cons p d ih =>
    by_cases hpk : p.1 = k
    · simp [dlookup, hpk, hkq, ih, hkq.symm]  -- replaced head has key k ≠ q
    · simp [dlookup, hpk, ih]

theorem dlookup_map_replace_eq {d : Dict V} {k : String} (v : V)
    (hk : k ∈ keys d) :
    dlookup (d.map fun p => if p.1 = k then (k, v) else p) k = some v := by
  induction d with
  | nil => simp [keys] at hk
  | cons p d ih =>
    by_cases hpk : p.1 = k
    · simp [dlookup, hpk]
    · rw [keys_cons] at hk
      rcases List.mem_cons.1 hk with h1 | h1
      · exact absurd h1.symm hpk
      · simp [dlookup, hpk, ih h1]

theorem dlookup_dictInsert (d : Dict V) (k : String) (v : V) (q : String) :
    dlookup (dictInsert d k v) q = if k = q then some v else dlookup d q := by
  unfold dictInsert
  by_cases hk : k ∈ keys d
  · rw [if_pos hk]
    by_cases hkq : k = q
    · subst hkq; simp [dlookup_map_replace_eq v hk]
    · simp [dlookup_map_replace_ne v hkq, hkq]
  · rw [if_neg hk]
    exact dlookup_append_single v q hk

theorem keys_dictInsert_of_mem {d : Dict V} {k : String} (v : V)
    (hk : k ∈ keys d) : keys (dictInsert d k v) = keys d := by
  unfold dictInsert
  rw [if_pos hk]
  simp only [keys, List.map_map]
  congr 1
  funext p
  by_cases hpk : p.1 = k <;> simp [Function.comp, hpk]

theorem keys_dictInsert_of_not_mem {d : Dict V} {k : String} (v : V)
    (hk : k ∉ keys d) : keys (dictInsert d k v) = keys d ++ [k] := by
  unfold dictInsert
  rw [if_neg hk]
  simp [keys]

theorem wf_dictInsert {d : Dict V} (k : String) (v : V) (h : wfDict d) :
    wfDict (dictInsert d k v) := by
  by_cases hk : k ∈ keys d
  · unfold wfDict; rw [keys_dictInsert_of_mem v hk]; exact h
  · unfold wfDict; rw [keys_dictInsert_of_not_mem v hk]
    refine List.Nodup.append h (List.nodup_singleton k) ?_
    intro a ha hb
    rw [List.mem_singleton] at hb
    exact hk (hb ▸ ha)

theorem dict_update_nil (a : Dict V) : dict_update a [] = a := rfl

theorem dict_update_cons (a : Dict V) (p : String × V) (b : Dict V) :
    dict_update a (p :: b) = dict_update (dictInsert a p.1 p.2) b := rfl

theorem wf_dict_update {a : Dict V} (b : Dict V) (h : wfDict a) :
    wfDict (dict_update a b) := by
  induction b generalizing a with
  | nil => exact h
  | cons p b ih => exact ih (wf_dictInsert p.1 p.2 h)

theorem dlookup_dict_update (a : Dict V) {b : Dict V} (hb : wfDict b)
    (q : String) :
    dlookup (dict_update a b) q = oor (dlookup b q) (dlookup a q) := by
  induction b generalizing a with
  | nil => simp [dict_update_nil, dlookup, oor]
  | cons p b ih =>
    have hb2 : (p.1 :: keys b).Nodup := hb
    have hb' : wfDict b := (List.nodup_cons.1 hb2).2
    have hp : p.1 ∉ keys b := (List.nodup_cons.1 hb2).1
    rw [dict_update_cons, ih _ hb']
    by_cases hpq : p.1 = q
    · subst hpq
      have : dlookup b p.1 = none := (dlookup_eq_none_iff b p.1).2 hp
      simp [dlookup, this, oor, dlookup_dictInsert]
    · simp [dlookup, hpq, dlookup_dictInsert]

theorem mem_keys_dict_update {a b : Dict V} {k : String}
    (h : k ∈ keys (dict_update a b)) : k ∈ keys a ∨ k ∈ keys b := by
  induction b generalizing a with
  | nil => exact Or.inl h
  | cons p b ih =>
    rw [dict_update_cons] at h
    rcases ih h with h' | h'
    · by_cases hp : p.1 ∈ keys a
      · rw [keys_dictInsert_of_mem p.2 hp] at h'
        exact Or.inl h'
      · rw [keys_dictInsert_of_not_mem p.2 hp] at h'
        rcases List.mem_append.1 h' with h'' | h''
        · exact Or.inl h''
        · right
          rw [keys_cons, List.mem_cons]
          exact Or.inl (List.mem_singleton.1 h'')
    · right
      rw [keys_cons, List.mem_cons]
      exact Or.inr h'

theorem dict_update_of_disjoint {b : Dict V} (a : Dict V) (hb : wfDict b)
    (h : ∀ k ∈ keys b, k ∉ keys a) : dict_update a b = a ++ b := by
  induction b generalizing a with
  | nil => simp [dict_update_nil]
  | cons p b ih =>
    rcases p with ⟨pk, pv⟩
    have hb2 : (pk :: keys b).Nodup := hb
    have hpk : pk ∉ keys a := h pk (by rw [keys_cons]; exact List.mem_cons_self pk _)
    have hstep : dictInsert a pk pv = a ++ [(pk, pv)] := by
      unfold dictInsert; rw [if_neg hpk]
    rw [dict_update_cons]
    simp only at hstep
    rw [hstep, ih (a ++ [(pk, pv)]) (List.nodup_cons.1 hb2).2 ?h]
    · simp
    case h =>
      intro k hk
      rw [keys_append]
      intro hmem
      rcases List.mem_append.1 hmem with hka | hks
      · exact h k (by rw [keys_cons]; exact List.mem_cons_of_mem _ hk) hka
      · have hkpk : k = pk := by simpa [keys] using hks
        exact (List.nodup_cons.1 hb2).1 (hkpk ▸ hk)

theorem dict_update_nil_left {d : Dict V} (hd : wfDict d) :
    dict_update [] d = d := by
  rw [dict_update_of_disjoint [] hd (by simp [keys])]
  simp

theorem dlookup_merge_nonempty (a : Dict V) {r : Dict V} (hr : wfDict r)
    (q : String) :
    dlookup (merge_nonempty a r) q = oor (dlookup r q) (dlookup a q) := by
  unfold merge_nonempty
  cases r with
  | nil => simp [dlookup, oor]
  | cons p r => simp [List.isEmpty, dlookup_dict_update a hr q]

theorem wf_merge_nonempty {a : Dict V} (r : Dict V) (h : wfDict a) :
    wfDict (merge_nonempty a r) := by
  unfold merge_nonempty
  by_cases hr : r.isEmpty <;> simp [hr, h, wf_dict_update]

theorem wf_merge_opt {a : Dict V} (r : Option (Dict V)) (h : wfDict a) :
    wfDict (merge_opt a r) := by
  cases r with
  | none => exact h
  | some d => exact wf_merge_nonempty d h

theorem mem_keys_merge_nonempty {a r : Dict V} {k : String}
    (h : k ∈ keys (merge_nonempty a r)) :
    k ∈ keys a ∨ (r ≠ [] ∧ k ∈ keys r) := by
  unfold merge_nonempty at h
  cases r with
  | nil => exact Or.inl (by simpa using h)
  | cons p r =>
    rw [if_neg (by simp)] at h
    rcases mem_keys_dict_update h with h' | h'
    · exact Or.inl h'
    · exact Or.inr ⟨List.cons_ne_nil p r, h'⟩

/-! ### Unfolding equations and invariants of the dispatcher -/

theorem decorated_mk (func : Op V E) (n : String) (subs : List GroupNode) :
    decorated func (GroupNode.mk n subs) =
      match runChildren func subs [] with
      | Except.error e => Except.error e
      | Except.ok responses =>
        match func (GroupNode.mk n subs) with
        | Except.error e => Except.error e
        | Except.ok r => Except.ok (merge_opt responses r) := by
  rw [decorated]

theorem runChildren_nil (func : Op V E) (acc : Dict V) :
    runChildren func [] acc = Except.ok acc := by
  rw [runChildren]

theorem runChildren_cons (func : Op V E) (g : GroupNode) (gs : List GroupNode)
    (acc : Dict V) :
    runChildren func (g :: gs) acc =
      match decorated func g with
      | Except.error e => Except.error e
      | Except.ok r => runChildren func gs (merge_nonempty acc r) := by
  rw [runChildren]

theorem runChildren_wf {func : Op V E} (gs : List GroupNode) {acc r : Dict V}
    (hacc : wfDict acc) (h : runChildren func gs acc = Except.ok r) :
    wfDict r := by
  induction gs generalizing acc with
  | nil =>
    rw [runChildren_nil] at h
    cases h
    exact hacc
  | cons g gs ih =>
    rw [runChildren_cons] at h
    cases hd : decorated func g with
    | error e => rw [hd] at h; exact Except.noConfusion h
    | ok rr =>
      rw [hd] at h
      exact ih (wf_merge_nonempty rr hacc) h

theorem decorated_wf {func : Op V E} {g : GroupNode} {d : Dict V}
    (h : decorated func g = Except.ok d) : wfDict d := by
  cases g with
  | mk n subs =>
    rw [decorated_mk] at h
    cases hrc : runChildren func subs [] with
    | error e => rw [hrc] at h; exact Except.noConfusion h
    | ok responses =>
      rw [hrc] at h
      have hwr : wfDict responses :=
        runChildren_wf subs (show wfDict [] from List.nodup_nil) hrc
      cases hf : func (GroupNode.mk n subs) with
      | error e => rw [hf] at h; exact Except.noConfusion h
      | ok r =>
        rw [hf] at h
        cases h
        exact wf_merge_opt r hwr

theorem runChildren_ok_eq {func : Op V E} (subs : List GroupNode)
    (rs : List (Dict V)) (hch : subs.map (decorated func) = rs.map Except.ok)
    (acc : Dict V) :
    runChildren func subs acc = Except.ok (rs.foldl merge_nonempty acc) := by
  induction subs generalizing rs acc with
  | nil =>
    have : rs = [] := by
      cases rs with
      | nil => rfl
      | cons r rs => exact List.noConfusion hch
    subst this
    exact runChildren_nil func acc
  | cons g gs ih =>
    cases rs with
    | nil => exact List.noConfusion hch
    | cons r rs =>
      rw [List.map_cons, List.map_cons] at hch
      have h1 : decorated func g = Except.ok r := (List.cons_eq_cons.1 hch).1
      have h2 : gs.map (decorated func) = rs.map Except.ok :=
        (List.cons_eq_cons.1 hch).2
      rw [runChildren_cons, h1]
      exact ih rs h2 (merge_nonempty acc r)

theorem map_ok_mem {func : Op V E} {subs : List GroupNode} {rs : List (Dict V)}
    (hch : subs.map (decorated func) = rs.map Except.ok) {r : Dict V}
    (hr : r ∈ rs) : ∃ g, g ∈ subs ∧ decorated func g = Except.ok r := by
  induction subs generalizing rs with
  | nil =>
    cases rs with
    | nil => exact absurd hr (List.not_mem_nil r)
    | cons x xs => exact List.noConfusion hch
  | cons g gs ih =>
    cases rs with
    | nil => exact List.noConfusion hch
    | cons x xs =>
      rw [List.map_cons, List.map_cons] at hch
      have h1 : decorated func g = Except.ok x := (List.cons_eq_cons.1 hch).1
      have h2 : gs.map (decorated func) = xs.map Except.ok :=
        (List.cons_eq_cons.1 hch).2
      rcases List.mem_cons.1 hr with h3 | h3
      · exact ⟨g, List.mem_cons_self g gs, h3 ▸ h1⟩
      · rcases ih h2 h3 with ⟨g', hg', hok⟩
        exact ⟨g', List.mem_cons_of_mem g hg', hok⟩

theorem decorated_leaf {func : Op V E} {n : String} {d : Dict V}
    (hf : func (GroupNode.mk n []) = Except.ok (some d)) (hd : wfDict d) :
    decorated func (GroupNode.mk n []) = Except.ok d := by
  rw [decorated_mk, runChildren_nil, hf]
  cases d with
  | nil => rfl
  | cons p d' =>
    show Except.ok (merge_nonempty [] (p :: d')) = _
    unfold merge_nonempty
    rw [if_neg (by simp), dict_update_nil_left hd]

theorem decorated_leaf_error {func : Op V E} {n : String} {e : E}
    (hf : func (GroupNode.mk n []) = Except.error e) :
    decorated func (GroupNode.mk n []) = Except.error e := by
  rw [decorated_mk, runChildren_nil, hf]

theorem runChildren_ok_of_forall {func : Op V E} (gs : List GroupNode)
    (h : ∀ g ∈ gs, ∃ d, decorated func g = Except.ok d) (acc : Dict V) :
    ∃ r, runChildren func gs acc = Except.ok r := by
  induction gs generalizing acc with
  | nil => exact ⟨acc, runChildren_nil func acc⟩
  | cons g gs ih =>
    rcases h g (List.mem_cons_self g gs) with ⟨d, hd⟩
    rw [runChildren_cons, hd]
    exact ih (fun g' hg' => h g' (List.mem_cons_of_mem g hg')) _

theorem runChildren_error_exists {func : Op V E} (gs : List GroupNode)
    (h : ∃ g ∈ gs, ∃ e, decorated func g = Except.error e) (acc : Dict V) :
    ∃ e, runChildren func gs acc = Except.error e := by
  induction gs generalizing acc with
  | nil => rcases h with ⟨g, hg, _⟩; exact absurd hg (List.not_mem_nil g)
  | cons g gs ih =>
    rw [runChildren_cons]
    cases hd : decorated func g with
    | error e => exact ⟨e, rfl⟩
    | ok r =>
      apply ih _ (merge_nonempty acc r)
      rcases h with ⟨g', hg', e', he'⟩
      rcases List.mem_cons.1 hg' with h1 | h1
      · rw [h1] at he'; rw [he'] at hd; exact Except.noConfusion hd
      · exact ⟨g', h1, e', he'⟩

theorem runChildren_error_of_forall {func : Op V E} (gs : List GroupNode) (e : E)
    (hprop : ∀ g ∈ gs,
      decorated func g = Except.error e ∨ ∃ d, decorated func g = Except.ok d)
    (hex : ∃ g ∈ gs, decorated func g = Except.error e) (acc : Dict V) :
    runChildren func gs acc = Except.error e := by
  induction gs generalizing acc with
  | nil => rcases hex with ⟨g, hg, _⟩; exact absurd hg (List.not_mem_nil g)
  | cons g gs ih =>
    rw [runChildren_cons]
    rcases hprop g (List.mem_cons_self g gs) with h1 | ⟨d, h1⟩
    · rw [h1]
    · rw [h1]
      apply ih (fun g' hg' => hprop g' (List.mem_cons_of_mem g hg'))
      rcases hex with ⟨g', hg', he'⟩
      rcases List.mem_cons.1 hg' with h2 | h2
      · rw [h2] at he'; rw [he'] at h1; exact Except.noConfusion h1
      · exact ⟨g', h2, he'⟩

theorem runChildren_congr {func fun2 : Op V E} (gs : List GroupNode)
    (h : ∀ g ∈ gs, decorated fun2 g = decorated func g) (acc : Dict V) :
    runChildren fun2 gs acc = runChildren func gs acc := by
  induction gs generalizing acc with
  | nil => rw [runChildren_nil, runChildren_nil]
  | cons g gs ih =>
    rw [runChildren_cons, runChildren_cons, h g (List.mem_cons_self g gs)]
    cases decorated func g with
    | error e => rfl
    | ok r => exact ih (fun g' hg' => h g' (List.mem_cons_of_mem g hg')) _

/-! ### The node set of a tree, and induction over the tree -/

theorem nodes_mk (n : String) (subs : List GroupNode) :
    nodes (GroupNode.mk n subs) = GroupNode.mk n subs :: nodesList subs := by
  rw [nodes]

theorem nodesList_nil : nodesList [] = [] := by rw [nodesList]

theorem nodesList_cons (g : GroupNode) (gs : List GroupNode) :
    nodesList (g :: gs) = nodes g ++ nodesList gs := by
  rw [nodesList]

theorem mem_nodesList_iff (m : GroupNode) (gs : List GroupNode) :
    m ∈ nodesList gs ↔ ∃ g ∈ gs, m ∈ nodes g := by
  induction gs with
  | nil => simp [nodesList_nil]
  | cons g gs ih => simp [nodesList_cons, ih]

theorem self_mem_nodes (g : GroupNode) : g ∈ nodes g := by
  cases g with
  | mk n subs => rw [nodes_mk]; exact List.mem_cons_self _ _

theorem mem_nodes_of_mem_sub (n : String) {subs : List GroupNode}
    {g m : GroupNode} (hg : g ∈ subs) (hm : m ∈ nodes g) :
    m ∈ nodes (GroupNode.mk n subs) := by
  rw [nodes_mk]
  exact List.mem_cons_of_mem _ ((mem_nodesList_iff m subs).2 ⟨g, hg, hm⟩)

theorem sizeOf_lt_of_mem_sub (n : String) {subs : List GroupNode}
    {g : GroupNode} (h : g ∈ subs) :
    sizeOf g < sizeOf (GroupNode.mk n subs) := by
  have h1 := List.sizeOf_lt_of_mem h
  have h2 : sizeOf (GroupNode.mk n subs) = 1 + sizeOf n + sizeOf subs := by
    simp
  omega

theorem sizeOf_le_of_mem_nodes {m : GroupNode} :
    ∀ (g : GroupNode), m ∈ nodes g → sizeOf m ≤ sizeOf g
  | GroupNode.mk n subs, hm => by
    rw [nodes_mk] at hm
    rcases List.mem_cons.1 hm with h | h
    · rw [h]
    · rcases (mem_nodesList_iff m subs).1 h with ⟨g', hg', hm'⟩
      have ih := sizeOf_le_of_mem_nodes g' hm'
      have hlt := sizeOf_lt_of_mem_sub n hg'
      omega
termination_by g => sizeOf g
decreasing_by exact sizeOf_lt_of_mem_sub n hg'

theorem decorated_ok_of_all_ok (func : Op V E) :
    ∀ (g : GroupNode), (∀ m ∈ nodes g, ∃ r, func m = Except.ok r) →
      ∃ d, decorated func g = Except.ok d
  | GroupNode.mk n subs, h => by
    have hch : ∀ g' ∈ subs, ∃ d, decorated func g' = Except.ok d := by
      intro g' hg'
      exact decorated_ok_of_all_ok func g'
        (fun m hm => h m (mem_nodes_of_mem_sub n hg' hm))
    rcases runChildren_ok_of_forall subs hch [] with ⟨resp, hresp⟩
    rcases h (GroupNode.mk n subs) (self_mem_nodes _) with ⟨r, hr⟩
    exact ⟨merge_opt resp r, by rw [decorated_mk, hresp, hr]⟩
termination_by g => sizeOf g
decreasing_by exact sizeOf_lt_of_mem_sub n hg'

theorem decorated_congr (func fun2 : Op V E) :
    ∀ (g : GroupNode), (∀ m ∈ nodes g, fun2 m = func m) →
      decorated fun2 g = decorated func g
  | GroupNode.mk n subs, h => by
    have hch : ∀ g' ∈ subs, decorated fun2 g' = decorated func g' := by
      intro g' hg'
      exact decorated_congr func fun2 g'
        (fun m hm => h m (mem_nodes_of_mem_sub n hg' hm))
    rw [decorated_mk, decorated_mk, runChildren_congr subs hch [],
      h _ (self_mem_nodes _)]
termination_by g => sizeOf g
decreasing_by exact sizeOf_lt_of_mem_sub n hg'

theorem decorated_error_of_single (func : Op V E) (e : E) :
    ∀ (root n0 : GroupNode), n0 ∈ nodes root → func n0 = Except.error e →
      (∀ m ∈ nodes root, m ≠ n0 → ∃ r, func m = Except.ok r) →
      decorated func root = Except.error e
  | GroupNode.mk n subs, n0, hmem, herr, hok => by
    by_cases hroot : GroupNode.mk n subs = n0
    · have hchild : ∀ g ∈ subs, ∃ d, decorated func g = Except.ok d := by
        intro g hg
        apply decorated_ok_of_all_ok func g
        intro m hm
        apply hok m (mem_nodes_of_mem_sub n hg hm)
        intro hmn0
        have h1 : sizeOf m ≤ sizeOf g := sizeOf_le_of_mem_nodes g hm
        have h2 : sizeOf g < sizeOf (GroupNode.mk n subs) := sizeOf_lt_of_mem_sub n hg
        rw [hmn0, ← hroot] at h1
        omega
      rcases runChildren_ok_of_forall subs hchild [] with ⟨resp, hresp⟩
      rw [decorated_mk, hresp, hroot, herr]
    · have hmem' : n0 ∈ nodesList subs := by
        rw [nodes_mk] at hmem
        rcases List.mem_cons.1 hmem with h | h
        · exact absurd h.symm hroot
        · exact h
      rcases (mem_nodesList_iff n0 subs).1 hmem' with ⟨g0, hg0, hn0⟩
      have herrsub : ∀ g ∈ subs, n0 ∈ nodes g → decorated func g = Except.error e := by
        intro g hg hng
        exact decorated_error_of_single func e g n0 hng herr
          (fun m hm hmne => hok m (mem_nodes_of_mem_sub n hg hm) hmne)
      have hprop : ∀ g ∈ subs,
          decorated func g = Except.error e ∨ ∃ d, decorated func g = Except.ok d := by
        intro g hg
        by_cases hngs : n0 ∈ nodes g
        · exact Or.inl (herrsub g hg hngs)
        · refine Or.inr (decorated_ok_of_all_ok func g ?_)
          intro m hm
          apply hok m (mem_nodes_of_mem_sub n hg hm)
          intro hmn0
          exact hngs (hmn0 ▸ hm)
      have hrc := runChildren_error_of_forall subs e hprop
        ⟨g0, hg0, herrsub g0 hg0 hn0⟩ []
      rw [decorated_mk, hrc]
termination_by root _ _ _ _ => sizeOf root
decreasing_by exact sizeOf_lt_of_mem_sub n hg

/-! ### Disjoint child results: order-independence of the merge -/

theorem disjointKeys_symm : Symmetric (fun a b : Dict V => disjointKeys a b) := by
  intro a b hab k hk
  cases hla : dlookup a k with
  | none => rfl
  | some v =>
    have hka : k ∈ keys a := mem_keys_of_dlookup_eq_some hla
    have : dlookup b k = none := hab k hka
    rw [dlookup_eq_none_iff] at this
    exact absurd hk this

theorem pairwise_lookup_unique {rs : List (Dict V)}
    (hdisj : rs.Pairwise disjointKeys) {a b : Dict V} (ha : a ∈ rs) (hb : b ∈ rs)
    {q : String} {v w : V} (hva : dlookup a q = some v) (hvb : dlookup b q = some w) :
    v = w := by
  by_cases hab : a = b
  · rw [hab, hvb] at hva
    exact (Option.some.inj hva).symm
  · have hd : disjointKeys a b := hdisj.forall disjointKeys_symm ha hb hab
    have : dlookup b q = none := hd q (mem_keys_of_dlookup_eq_some hva)
    rw [this] at hvb
    exact Option.noConfusion hvb

theorem findSome_lookup_perm {rs rs' : List (Dict V)} (hperm : rs.Perm rs')
    (hdisj : rs.Pairwise disjointKeys) (q : String) :
    rs'.findSome? (fun d => dlookup d q) = rs.findSome? (fun d => dlookup d q) := by
  cases hfs : rs.findSome? (fun d => dlookup d q) with
  | none =>
    rw [List.findSome?_eq_none_iff] at hfs ⊢
    exact fun d hd => hfs d (hperm.mem_iff.2 hd)
  | some v =>
    rcases List.exists_of_findSome?_eq_some hfs with ⟨d, hd, hdv⟩
    cases hfs' : rs'.findSome? (fun d => dlookup d q) with
    | none =>
      rw [List.findSome?_eq_none_iff] at hfs'
      rw [hfs' d (hperm.mem_iff.1 hd)] at hdv
      exact Option.noConfusion hdv
    | some w =>
      rcases List.exists_of_findSome?_eq_some hfs' with ⟨d', hd', hdw⟩
      rw [pairwise_lookup_unique hdisj (hperm.mem_iff.2 hd') hd hdw hdv]

theorem wf_foldl_merge {acc : Dict V} (rs : List (Dict V)) (h : wfDict acc) :
    wfDict (rs.foldl merge_nonempty acc) := by
  induction rs generalizing acc with
  | nil => exact h
  | cons r rs ih => exact ih (wf_merge_nonempty r h)

theorem foldl_merge_lookup {rs : List (Dict V)} (hwf : ∀ r ∈ rs, wfDict r)
    (hdisj : rs.Pairwise disjointKeys) (acc : Dict V) (q : String) :
    dlookup (rs.foldl merge_nonempty acc) q =
      oor (rs.findSome? (fun d => dlookup d q)) (dlookup acc q) := by
  induction rs generalizing acc with
  | nil => simp [oor]
  | cons d rs ih =>
    have hwfd : wfDict d := hwf d (List.mem_cons_self d rs)
    have hwf' : ∀ r ∈ rs, wfDict r := fun r hr => hwf r (List.mem_cons_of_mem d hr)
    have hd' : ∀ b ∈ rs, disjointKeys d b := (List.pairwise_cons.1 hdisj).1
    rw [List.foldl_cons, ih hwf' (List.pairwise_cons.1 hdisj).2,
      dlookup_merge_nonempty acc hwfd, List.findSome?_cons]
    cases hdq : dlookup d q with
    | some v =>
      have : ∀ b ∈ rs, dlookup b q = none := fun b hb =>
        hd' b hb q (mem_keys_of_dlookup_eq_some hdq)
      rw [List.findSome?_eq_none_iff.2 this]
      rfl
    | none => rfl

theorem nodeAggregate_lookup {rs : List (Dict V)} (hwf : ∀ r ∈ rs, wfDict r)
    (hdisj : rs.Pairwise disjointKeys) {localR : Option (Dict V)}
    (hlwf : ∀ d, localR = some d → wfDict d) (q : String) :
    dlookup (nodeAggregate rs localR) q = unionLookup rs localR q := by
  unfold nodeAggregate unionLookup optLookup
  cases localR with
  | none =>
    show dlookup (rs.foldl merge_nonempty []) q =
      oor none (rs.findSome? (fun d => dlookup d q))
    rw [foldl_merge_lookup hwf hdisj [] q,
      show dlookup ([] : Dict V) q = none from rfl, oor_none_right]
    rfl
  | some d =>
    show dlookup (merge_nonempty (rs.foldl merge_nonempty []) d) q =
      oor (dlookup d q) (rs.findSome? (fun d => dlookup d q))
    rw [dlookup_merge_nonempty _ (hlwf d rfl) q,
      foldl_merge_lookup hwf hdisj [] q,
      show dlookup ([] : Dict V) q = none from rfl, oor_none_right]

/-! ### Walker lemmas -/

theorem collect_dict (es : List (Value × Value)) :
    collect (Value.dict es) = collectEntries (Value.dict es) es := by
  rw [collect]

theorem collect_list (xs : List Value) :
    collect (Value.list xs) = collectElems (Value.list xs) 0 xs := by
  rw [collect]

theorem collect_target (i : Nat) : collect (Value.target i) = [] := by
  rw [collect] <;> simp

theorem collect_int (n : Int) : collect (Value.int n) = [] := by
  rw [collect] <;> simp

theorem collect_str (s : String) : collect (Value.str s) = [] := by
  rw [collect] <;> simp

theorem collectEntries_nil (c : Value) : collectEntries c [] = [] := by
  rw [collectEntries]

theorem collectEntries_cons (c k v : Value) (rest : List (Value × Value)) :
    collectEntries c ((k, v) :: rest) =
      (if isTarget v then [⟨c, VKey.key k, v⟩]
       else if isContainer v then collect v else []) ++ collectEntries c rest := by
  rw [collectEntries]

theorem collectElems_nil (c : Value) (i : Nat) : collectElems c i [] = [] := by
  rw [collectElems]

theorem collectElems_cons (c : Value) (i : Nat) (v : Value) (rest : List Value) :
    collectElems c i (v :: rest) =
      (if isTarget v then [⟨c, VKey.idx i, v⟩]
       else if isContainer v then collect v else []) ++ collectElems c (i + 1) rest := by
  rw [collectElems]

theorem collectEntries_cases {c : Value} {es : List (Value × Value)} {r : Visit}
    (h : r ∈ collectEntries c es) :
    (∃ k v, (k, v) ∈ es ∧ isTarget v = true ∧ r = ⟨c, VKey.key k, v⟩)
    ∨ (∃ p, p ∈ es ∧ isTarget p.2 = false ∧ isContainer p.2 = true ∧ r ∈ collect p.2) := by
  induction es with
  | nil => rw [collectEntries_nil] at h; exact absurd h (List.not_mem_nil r)
  | cons p rest ih =>
    rcases p with ⟨k, v⟩
    rw [collectEntries_cons] at h
    rcases List.mem_append.1 h with h1 | h1
    · by_cases ht : isTarget v
      · rw [if_pos ht, List.mem_singleton] at h1
        exact Or.inl ⟨k, v, List.mem_cons_self _ _, ht, h1⟩
      · rw [if_neg ht] at h1
        by_cases hc : isContainer v
        · rw [if_pos hc] at h1
          exact Or.inr ⟨(k, v), List.mem_cons_self _ _,
            Bool.not_eq_true _ ▸ ht, hc, h1⟩
        · rw [if_neg hc] at h1
          exact absurd h1 (List.not_mem_nil r)
    · rcases ih h1 with h2 | h2
      · rcases h2 with ⟨k', v', hm, ht, hr⟩
        exact Or.inl ⟨k', v', List.mem_cons_of_mem _ hm, ht, hr⟩
      · rcases h2 with ⟨p', hm, ht, hc, hr⟩
        exact Or.inr ⟨p', List.mem_cons_of_mem _ hm, ht, hc, hr⟩

theorem collectElems_cases {c : Value} {i : Nat} {xs : List Value} {r : Visit}
    (h : r ∈ collectElems c i xs) :
    r.container = c ∨ ∃ v, v ∈ xs ∧ isContainer v = true ∧ r ∈ collect v := by
  induction xs generalizing i with
  | nil => rw [collectElems_nil] at h; exact absurd h (List.not_mem_nil r)
  | cons v rest ih =>
    rw [collectElems_cons] at h
    rcases List.mem_append.1 h with h1 | h1
    · by_cases ht : isTarget v
      · rw [if_pos ht, List.mem_singleton] at h1
        rw [h1]
        exact Or.inl rfl
      · rw [if_neg ht] at h1
        by_cases hc : isContainer v
        · rw [if_pos hc] at h1
          exact Or.inr ⟨v, List.mem_cons_self _ _, hc, h1⟩
        · rw [if_neg hc] at h1
          exact absurd h1 (List.not_mem_nil r)
    · rcases ih h1 with h2 | h2
      · exact Or.inl h2
      · rcases h2 with ⟨v', hm, hc, hr⟩
        exact Or.inr ⟨v', List.mem_cons_of_mem _ hm, hc, hr⟩

theorem sizeOf_snd_lt_of_mem_entries {p : Value × Value}
    {es : List (Value × Value)} (h : p ∈ es) :
    sizeOf p.2 < sizeOf (Value.dict es) := by
  have h1 := List.sizeOf_lt_of_mem h
  rcases p with ⟨a, b⟩
  have h2 : sizeOf ((a, b) : Value × Value) = 1 + sizeOf a + sizeOf b := rfl
  have h3 : sizeOf (Value.dict es) = 1 + sizeOf es := by simp
  simp only at h1 h2 ⊢
  omega

theorem sizeOf_lt_of_mem_elems {v : Value} {xs : List Value} (h : v ∈ xs) :
    sizeOf v < sizeOf (Value.list xs) := by
  have h1 := List.sizeOf_lt_of_mem h
  have h2 : sizeOf (Value.list xs) = 1 + sizeOf xs := by simp
  omega

theorem sizeOf_container_le_of_mem_collect {r : Visit} :
    ∀ (v : Value), r ∈ collect v → sizeOf r.container ≤ sizeOf v
  | Value.target i, h => by rw [collect_target] at h; exact absurd h (List.not_mem_nil r)
  | Value.int n, h => by rw [collect_int] at h; exact absurd h (List.not_mem_nil r)
  | Value.str s, h => by rw [collect_str] at h; exact absurd h (List.not_mem_nil r)
  | Value.dict es, h => by
    rw [collect_dict] at h
    rcases collectEntries_cases h with h1 | h1
    · rcases h1 with ⟨k, v, _, _, hr⟩
      rw [hr]
    · rcases h1 with ⟨p, hm, _, _, hr⟩
      have ih := sizeOf_container_le_of_mem_collect p.2 hr
      have hlt := sizeOf_snd_lt_of_mem_entries hm
      omega
  | Value.list xs, h => by
    rw [collect_list] at h
    rcases collectElems_cases h with h1 | h1
    · rw [h1]
    · rcases h1 with ⟨v, hm, _, hr⟩
      have ih := sizeOf_container_le_of_mem_collect v hr
      have hlt := sizeOf_lt_of_mem_elems hm
      omega
termination_by v => sizeOf v
decreasing_by
  · exact sizeOf_snd_lt_of_mem_entries hm
  · exact sizeOf_lt_of_mem_elems hm

theorem collectEntries_eq_nil {es : List (Value × Value)} (c : Value)
    (h : ∀ p ∈ es, isTarget p.2 = false ∧ isContainer p.2 = false) :
    collectEntries c es = [] := by
  induction es with
  | nil => exact collectEntries_nil c
  | cons p rest ih =>
    rcases p with ⟨k, v⟩
    have hp := h (k, v) (List.mem_cons_self _ _)
    rw [collectEntries_cons, if_neg (by simp [hp.1]), if_neg (by simp [hp.2]),
      List.nil_append]
    exact ih (fun p hp' => h p (List.mem_cons_of_mem _ hp'))

theorem replaceTargets_non_container {v : Value} (y : Value)
    (h : isContainer v = false) : replaceTargets y v = v := by
  cases v with
  | target i => rw [replaceTargets] <;> simp
  | int n => rw [replaceTargets] <;> simp
  | str s => rw [replaceTargets] <;> simp
  | list xs => exact absurd h (by simp [isContainer])
  | dict es => exact absurd h (by simp [isContainer])

theorem collect_non_container {v : Value} (h : isContainer v = false) :
    collect v = [] := by
  cases v with
  | target i => exact collect_target i
  | int n => exact collect_int n
  | str s => exact collect_str s
  | list xs => exact absurd h (by simp [isContainer])
  | dict es => exact absurd h (by simp [isContainer])

theorem runChildren_keys {func : Op V E} (gs : List GroupNode) {acc res : Dict V}
    (h : runChildren func gs acc = Except.ok res) {k : String} (hk : k ∈ keys res) :
    k ∈ keys acc
    ∨ ∃ g, g ∈ gs ∧ ∃ r, decorated func g = Except.ok r ∧ r ≠ [] ∧ k ∈ keys r := by
  induction gs generalizing acc with
  | nil =>
    rw [runChildren_nil] at h
    cases h
    exact Or.inl hk
  | cons g gs ih =>
    rw [runChildren_cons] at h
    cases hd : decorated func g with
    | error e => rw [hd] at h; exact Except.noConfusion h
    | ok r =>
      rw [hd] at h
      rcases ih h with h1 | h1
      · rcases mem_keys_merge_nonempty h1 with h2 | h2
        · exact Or.inl h2
        · exact Or.inr ⟨g, List.mem_cons_self _ _, r, hd, h2.1, h2.2⟩
      · rcases h1 with ⟨g', hg', hr⟩
        exact Or.inr ⟨g', List.mem_cons_of_mem _ hg', hr⟩

/-! ### The claims -/

/-- C1: for a node whose children each contribute a result mapping with
pairwise-disjoint key sets, dispatch returns the union of all children's
mappings plus the node's own local operation's mapping, and the aggregate
is the same (as a key-value mapping) for every completion order of the
child tasks. -/
theorem recurse_fanout_union_order_invariant (func : Op V E) (n : String)
    (subs : List GroupNode) (rs : List (Dict V)) (localR : Option (Dict V))
    (hch : subs.map (decorated func) = rs.map Except.ok)
    (hloc : func (GroupNode.mk n subs) = Except.ok localR)
    (hlwf : ∀ d, localR = some d → wfDict d)
    (hdisj : rs.Pairwise disjointKeys) :
    recurse_into_sub_stack_groups func (GroupNode.mk n subs) =
      Except.ok (nodeAggregate rs localR)
    ∧ (∀ k, dlookup (nodeAggregate rs localR) k = unionLookup rs localR k)
    ∧ (∀ rs', rs.Perm rs' →
        ∀ k, dlookup (nodeAggregate rs' localR) k =
          dlookup (nodeAggregate rs localR) k) := by
  have hwf : ∀ r ∈ rs, wfDict r := by
    intro r hr
    rcases map_ok_mem hch hr with ⟨g, _, hok⟩
    exact decorated_wf hok
  refine ⟨?_, ?_, ?_⟩
  · show decorated func (GroupNode.mk n subs) = _
    rw [decorated_mk, runChildren_ok_eq subs rs hch [], hloc]
    rfl
  · exact fun k => nodeAggregate_lookup hwf hdisj hlwf k
  · intro rs' hperm k
    have hwf' : ∀ r ∈ rs', wfDict r := fun r hr => hwf r (hperm.mem_iff.2 hr)
    have hdisj' : rs'.Pairwise disjointKeys :=
      (List.Perm.pairwise_iff (fun hx => disjointKeys_symm hx) hperm).1 hdisj
    rw [nodeAggregate_lookup hwf' hdisj' hlwf k, nodeAggregate_lookup hwf hdisj hlwf k]
    unfold unionLookup
    rw [findSome_lookup_perm hperm hdisj k]

/-- Witness for C1: a two-child node with disjoint child results. -/
theorem recurse_fanout_union_order_invariant_wtn :
    dlookup (nodeAggregate [[("a", 1)], [("b", 1)]] (some [("r", 1)])) "a" =
      some (1 : Nat) := by
  have hch : ([GroupNode.mk "a" [], GroupNode.mk "b" []]).map (decorated opName) =
      ([[("a", (1 : Nat))], [("b", 1)]]).map Except.ok := by
    rw [List.map_cons, List.map_cons, List.map_nil,
      decorated_leaf
        (show opName (GroupNode.mk "a" []) = Except.ok (some [("a", 1)]) from rfl)
        (by decide),
      decorated_leaf
        (show opName (GroupNode.mk "b" []) = Except.ok (some [("b", 1)]) from rfl)
        (by decide)]
    rfl
  have h := recurse_fanout_union_order_invariant opName "r"
    [GroupNode.mk "a" [], GroupNode.mk "b" []]
    [[("a", 1)], [("b", 1)]] (some [("r", 1)]) hch rfl
    (fun d hd => by cases hd; decide) (by decide)
  exact (h.2.1 "a").trans (by decide)

/-- C2: if exactly one node's operation raises an error, the top-level
dispatch raises that same error, unchanged, to the original caller. -/
theorem single_error_propagates (func : Op V E) (root n0 : GroupNode) (e : E)
    (hmem : n0 ∈ nodes root) (herr : func n0 = Except.error e)
    (hok : ∀ m ∈ nodes root, m ≠ n0 → ∃ r, func m = Except.ok r) :
    recurse_into_sub_stack_groups func root = Except.error e :=
  decorated_error_of_single func e root n0 hmem herr hok

/-- Witness for C2: a root with two leaves, of which one raises. -/
theorem single_error_propagates_wtn :
    recurse_into_sub_stack_groups opErr
      (GroupNode.mk "r" [GroupNode.mk "a" [], GroupNode.mk "b" []]) =
      Except.error 7 := by
  apply single_error_propagates opErr
    (GroupNode.mk "r" [GroupNode.mk "a" [], GroupNode.mk "b" []])
    (GroupNode.mk "a" []) 7 ?hmem rfl ?hok
  case hmem =>
    exact mem_nodes_of_mem_sub "r" (List.mem_cons_self _ _) (self_mem_nodes _)
  case hok =>
    intro m hm hne
    have hnodes : nodes (GroupNode.mk "r" [GroupNode.mk "a" [], GroupNode.mk "b" []]) =
        [GroupNode.mk "r" [GroupNode.mk "a" [], GroupNode.mk "b" []],
         GroupNode.mk "a" [], GroupNode.mk "b" []] := by
      simp [nodes_mk, nodesList_cons, nodesList_nil]
    rw [hnodes] at hm
    rcases List.mem_cons.1 hm with rfl | hm
    · exact ⟨some [("r", 0)], rfl⟩
    rcases List.mem_cons.1 hm with rfl | hm
    · exact absurd rfl hne
    rcases List.mem_cons.1 hm with rfl | hm
    · exact ⟨some [("b", 0)], rfl⟩
    · exact absurd hm (List.not_mem_nil m)

/-- C3: dispatch on a leaf returns exactly the mapping produced by the
node's own local operation, unmodified. -/
theorem recurse_leaf_exact (func : Op V E) (n : String) (d : Dict V)
    (hf : func (GroupNode.mk n []) = Except.ok (some d)) (hd : wfDict d) :
    recurse_into_sub_stack_groups func (GroupNode.mk n []) = Except.ok d :=
  decorated_leaf hf hd

/-- Witness for C3. -/
theorem recurse_leaf_exact_wtn :
    recurse_into_sub_stack_groups opName (GroupNode.mk "s" []) =
      Except.ok [("s", 1)] :=
  recurse_leaf_exact opName "s" [("s", 1)] rfl (by decide)

/-- C4: the merge is last-merged-wins — each key of the merged partial
result overwrites any existing value — and since the node's own response is
merged after all children's, its value is the one present in the final
aggregate. -/
theorem update_overwrites_local_wins :
    (∀ (a b : Dict V) (k : String), wfDict b →
      dlookup (dict_update a b) k = oor (dlookup b k) (dlookup a k))
    ∧ (∀ (func : Op V E) (n : String) (subs : List GroupNode)
        (localD agg : Dict V) (k : String) (v : V),
        func (GroupNode.mk n subs) = Except.ok (some localD) → wfDict localD →
        recurse_into_sub_stack_groups func (GroupNode.mk n subs) = Except.ok agg →
        dlookup localD k = some v → dlookup agg k = some v) := by
  constructor
  · exact fun a b k hb => dlookup_dict_update a hb k
  · intro func n subs localD agg k v hf hwf hagg hk
    rw [show recurse_into_sub_stack_groups func = decorated func from rfl,
      decorated_mk] at hagg
    cases hrc : runChildren func subs [] with
    | error e => rw [hrc] at hagg; exact Except.noConfusion hagg
    | ok responses =>
      rw [hrc, hf] at hagg
      injection hagg with hagg'
      rw [← hagg',
        show merge_opt responses (some localD) = merge_nonempty responses localD
          from rfl,
        dlookup_merge_nonempty _ hwf k, hk]
      rfl

/-- Witness for C4: an overwrite on key collision, and the local value
surviving in a leaf dispatch. -/
theorem update_overwrites_local_wins_wtn :
    dlookup (dict_update [("x", 1)] [("x", 2)]) "x" = some (2 : Nat)
    ∧ dlookup [("r", 1)] "r" = some (1 : Nat) := by
  constructor
  · exact ((@update_overwrites_local_wins Nat Unit).1 [("x", 1)] [("x", 2)] "x"
      (by decide)).trans (by decide)
  · exact (@update_overwrites_local_wins Nat Unit).2 opName "r" [] [("r", 1)]
      [("r", 1)] "r" 1 rfl (by decide)
      (decorated_leaf (show opName (GroupNode.mk "r" []) =
        Except.ok (some [("r", 1)]) from rfl) (by decide))
      (by decide)

/-- C5: an operation returning an empty or absent result leaves the running
aggregate unchanged, and every key of the final aggregate was contributed
by some non-empty result (a child's response or the node's own). -/
theorem empty_results_contribute_nothing :
    (∀ (acc : Dict V), merge_nonempty acc [] = acc ∧ merge_opt acc none = acc
      ∧ merge_opt acc (some []) = acc)
    ∧ (∀ (func : Op V E) (n : String) (subs : List GroupNode) (agg : Dict V)
        (k : String),
        recurse_into_sub_stack_groups func (GroupNode.mk n subs) = Except.ok agg →
        k ∈ keys agg →
        (∃ g, g ∈ subs ∧ ∃ r, decorated func g = Except.ok r ∧ r ≠ [] ∧ k ∈ keys r)
        ∨ (∃ d, func (GroupNode.mk n subs) = Except.ok (some d) ∧ d ≠ [] ∧
            k ∈ keys d)) := by
  constructor
  · exact fun acc => ⟨rfl, rfl, rfl⟩
  · intro func n subs agg k hagg hk
    rw [show recurse_into_sub_stack_groups func = decorated func from rfl,
      decorated_mk] at hagg
    cases hrc : runChildren func subs [] with
    | error e => rw [hrc] at hagg; exact Except.noConfusion hagg
    | ok responses =>
      rw [hrc] at hagg
      cases hf : func (GroupNode.mk n subs) with
      | error e => rw [hf] at hagg; exact Except.noConfusion hagg
      | ok r =>
        rw [hf] at hagg
        injection hagg with hagg'
        rw [← hagg'] at hk
        cases r with
        | none =>
          rcases runChildren_keys subs hrc hk with h1 | h1
          · exact absurd h1 (by simp [keys])
          · exact Or.inl h1
        | some d =>
          rcases mem_keys_merge_nonempty
              (show k ∈ keys (merge_nonempty responses d) from hk) with h1 | h1
          · rcases runChildren_keys subs hrc h1 with h2 | h2
            · exact absurd h2 (by simp [keys])
            · exact Or.inl h2
          · exact Or.inr ⟨d, rfl, h1.1, h1.2⟩

/-- Witness for C5: an empty merge is a no-op, and the key `"a"` of a
one-child dispatch is traced back to the child's non-empty response. -/
theorem empty_results_contribute_nothing_wtn :
    merge_opt [("z", (9 : Nat))] none = [("z", 9)]
    ∧ ((∃ g, g ∈ [GroupNode.mk "a" []] ∧
          ∃ r, decorated opName g = Except.ok r ∧ r ≠ [] ∧ "a" ∈ keys r)
       ∨ (∃ d, opName (GroupNode.mk "r" [GroupNode.mk "a" []]) =
            Except.ok (some d) ∧ d ≠ [] ∧ "a" ∈ keys d)) := by
  constructor
  · exact ((@empty_results_contribute_nothing Nat Unit).1 [("z", 9)]).2.1
  · have hda : decorated opName (GroupNode.mk "a" []) = Except.ok [("a", 1)] :=
      decorated_leaf rfl (by decide)
    have hrc : runChildren opName [GroupNode.mk "a" []] [] = Except.ok [("a", 1)] := by
      rw [runChildren_cons, hda]
      show runChildren opName [] (merge_nonempty [] [("a", 1)]) = Except.ok [("a", 1)]
      rw [runChildren_nil]
      rfl
    have hrecurse : recurse_into_sub_stack_groups opName
        (GroupNode.mk "r" [GroupNode.mk "a" []]) = Except.ok [("a", 1), ("r", 1)] := by
      rw [show recurse_into_sub_stack_groups opName = decorated opName from rfl,
        decorated_mk, hrc]
      rfl
    exact (@empty_results_contribute_nothing Nat Unit).2 opName "r"
      [GroupNode.mk "a" []] [("a", 1), ("r", 1)] "a" hrecurse (by decide)

/-- C9: when a child's recursive dispatch raises, the node's own local
operation is never consulted (the outcome is the same for any behaviour of
the operation at that node) and the caller receives only the exception. -/
theorem child_error_skips_local (func fun2 : Op V E) (n : String)
    (subs : List GroupNode) (g : GroupNode) (e0 : E)
    (hg : g ∈ subs) (herr : decorated func g = Except.error e0)
    (hagree : ∀ m, m ≠ GroupNode.mk n subs → fun2 m = func m) :
    ∃ e, recurse_into_sub_stack_groups func (GroupNode.mk n subs) = Except.error e
      ∧ recurse_into_sub_stack_groups fun2 (GroupNode.mk n subs) = Except.error e := by
  rcases runChildren_error_exists subs ⟨g, hg, e0, herr⟩ [] with ⟨e, he⟩
  refine ⟨e, ?_, ?_⟩
  · show decorated func _ = _
    rw [decorated_mk, he]
  · show decorated fun2 _ = _
    have hcong : ∀ g' ∈ subs, decorated fun2 g' = decorated func g' := by
      intro g' hg'
      apply decorated_congr
      intro m hm
      apply hagree
      intro hmn
      have h1 : sizeOf m ≤ sizeOf g' := sizeOf_le_of_mem_nodes g' hm
      have h2 : sizeOf g' < sizeOf (GroupNode.mk n subs) := sizeOf_lt_of_mem_sub n hg'
      rw [hmn] at h1
      omega
    rw [decorated_mk, runChildren_congr subs hcong [], he]

/-- Witness for C9. -/
theorem child_error_skips_local_wtn :
    ∃ e, recurse_into_sub_stack_groups opErr
        (GroupNode.mk "r" [GroupNode.mk "a" [], GroupNode.mk "b" []]) = Except.error e
      ∧ recurse_into_sub_stack_groups opErr
        (GroupNode.mk "r" [GroupNode.mk "a" [], GroupNode.mk "b" []]) =
          Except.error e :=
  child_error_skips_local opErr opErr "r"
    [GroupNode.mk "a" [], GroupNode.mk "b" []] (GroupNode.mk "a" []) 7
    (List.mem_cons_self _ _) (decorated_leaf_error rfl) (fun _ _ => rfl)

/-- C6: on `{"a": [1, {"b": X}], "c": X}` with `X` of the target kind, the
walker invokes the callback exactly twice, once per occurrence, with the
exact containing container and key each time; replacing both occurrences
with `Y` yields `{"a": [1, {"b": Y}], "c": Y}`. -/
theorem walker_visits_each_occurrence (t : Nat) (Y : Value) :
    collect (walkSample (Value.target t)) =
      [⟨Value.dict [(Value.str "b", Value.target t)], VKey.key (Value.str "b"),
         Value.target t⟩,
       ⟨walkSample (Value.target t), VKey.key (Value.str "c"), Value.target t⟩]
    ∧ replaceTargets Y (walkSample (Value.target t)) = walkSample Y := by
  constructor
  · simp [walkSample, collect, collectEntries, collectElems, isTarget, isContainer]
  · simp [walkSample, replaceTargets, replaceEntries, replaceElems, isTarget,
      isContainer]

/-- C7: dict keys are never matched against the target kind — every
callback at a mapping container concerns the value of one of its entries,
and a mapping whose values are all plain scalars triggers no callback even
when its keys are target instances. -/
theorem keys_never_matched :
    (∀ (es : List (Value × Value)) (r : Visit), r ∈ collect (Value.dict es) →
      r.container = Value.dict es →
      ∃ k, r.at_key = VKey.key k ∧ (k, r.value) ∈ es ∧ isTarget r.value = true)
    ∧ (∀ es : List (Value × Value),
      (∀ p ∈ es, isTarget p.2 = false ∧ isContainer p.2 = false) →
      collect (Value.dict es) = []) := by
  constructor
  · intro es r hr hc
    rw [collect_dict] at hr
    rcases collectEntries_cases hr with h1 | h1
    · rcases h1 with ⟨k, v, hm, ht, hrr⟩
      subst hrr
      exact ⟨k, rfl, hm, ht⟩
    · rcases h1 with ⟨p, hm, _, _, hrr⟩
      have hle := sizeOf_container_le_of_mem_collect p.2 hrr
      have hlt := sizeOf_snd_lt_of_mem_entries hm
      rw [hc] at hle
      omega
  · intro es h
    rw [collect_dict]
    exact collectEntries_eq_nil _ h

/-- Witness for C7: a genuine visit at a mapping comes from an entry value,
and a mapping with a target-kind key but scalar value triggers nothing. -/
theorem keys_never_matched_wtn :
    (∃ k, (VKey.key (Value.str "k") : VKey) = VKey.key k
       ∧ (k, Value.target 5) ∈ [(Value.str "k", Value.target 5)]
       ∧ isTarget (Value.target 5) = true)
    ∧ collect (Value.dict [(Value.target 0, Value.int 1)]) = [] := by
  constructor
  · exact keys_never_matched.1 [(Value.str "k", Value.target 5)]
      ⟨Value.dict [(Value.str "k", Value.target 5)], VKey.key (Value.str "k"),
        Value.target 5⟩
      (by simp [collect, collectEntries, isTarget]) rfl
  · exact keys_never_matched.2 [(Value.target 0, Value.int 1)] (by decide)

/-- C10: a top-level argument that is neither a mapping nor a sequence —
including a target-kind instance — is returned unchanged and triggers no
callback. -/
theorem non_container_returned_unchanged (y v : Value)
    (h : isContainer v = false) :
    replaceTargets y v = v ∧ collect v = [] :=
  ⟨replaceTargets_non_container y h, collect_non_container h⟩

/-- Witness for C10 at a target-kind instance. -/
theorem non_container_returned_unchanged_wtn :
    replaceTargets (Value.int 0) (Value.target 7) = Value.target 7
    ∧ collect (Value.target 7) = [] :=
  non_container_returned_unchanged (Value.int 0) (Value.target 7) rfl

end Sceptre
